import Mathlib

/-!
Verification of the voice-trigger pipeline (jetson-voice-trigger).

Shallow embedding of the Python sources in `src/voice_trigger/`:
strings are `List Char`, Python floats (timestamps, cooldown durations,
similarity scores) are `ℚ`, byte buffers are `List Nat`.  External
collaborators (the WebRTC VAD classifier, the wall clock, the rapidfuzz
similarity scorer, the ASR engine) are modelled as oracle inputs, exactly
at the interface boundary the code uses them.
-/

namespace VoiceTrigger

/-- Strings of the embedded program are lists of unicode characters. -/
abbrev Str := List Char

/-! ## utils.py : text normalization

`normalize_text` in `utils.py` is
```
s = s.lower().strip()
s = "".join(c for c in unicodedata.normalize("NFKD", s) if not unicodedata.combining(c))
for ch in ",.;:!?\"'()[]{}":
    s = s.replace(ch, " ")
return " ".join(s.split())
```
The Python unicode library calls (`str.lower`, `str.isspace`-based
splitting/stripping, `unicodedata.normalize("NFKD", ·)` and
`unicodedata.combining`) are modelled on an explicitly documented fragment
of the Unicode tables: the fragment is exact (taken from UnicodeData.txt)
on all ASCII characters, on the combining-diacritics block U+0300..U+036F
and on U+2116 (NUMERO SIGN); characters outside the fragment are treated
as unmapped/undecomposed.  All general theorems below that quantify over
strings restrict to the ASCII part, where the fragment is complete.
-/

/-- Python `str.lower`, per character.  On the Basic Latin range this is
exactly `Char.toLower` (map A..Z to a..z, leave anything else alone),
which is also exactly what Python does on ASCII input.  (Outside ASCII,
Python lowercases per full Unicode tables; no such character is relied on
by a theorem below except U+2116, which has no lowercase mapping and is
correctly left unchanged here.) -/
def pyLower (c : Char) : Char := Char.toLower c

/-- Python `str.upper`, per character, on the Basic Latin fragment
(map a..z to A..Z); used by the UDP listener for verb matching. -/
def pyUpper (c : Char) : Char := Char.toUpper c

/-- Python whitespace (the class used by `str.strip()` and `str.split()`):
modelled exactly on ASCII — TAB, LF, VT, FF, CR, FS, GS, RS, US, SPACE —
plus U+0085 and U+00A0 which Python also treats as whitespace. -/
def isPySpace (c : Char) : Bool :=
  (9 ≤ c.toNat && c.toNat ≤ 13) || (28 ≤ c.toNat && c.toNat ≤ 31) ||
  c.toNat == 32 || c.toNat == 0x85 || c.toNat == 0xa0

/-- Compatibility decomposition `unicodedata.normalize("NFKD", ·)`, per
character, on the documented fragment: ASCII characters have no
decomposition (exact per UnicodeData.txt); U+2116 NUMERO SIGN has the
compatibility decomposition `<compat> 004E 006F` (capital N, small o).
Other characters are left undecomposed. -/
def nfkdChar (c : Char) : List Char :=
  if c.toNat = 0x2116 then ['N', 'o'] else [c]

/-- Nonzero canonical combining class test `unicodedata.combining(c) != 0`
on the documented fragment: every character of the combining-diacritics
block U+0300..U+036F has a nonzero class, every ASCII character (and
U+2116, N, o) has class zero. -/
def isCombining (c : Char) : Bool :=
  0x300 ≤ c.toNat && c.toNat ≤ 0x36f

/-- The punctuation characters replaced by spaces in `normalize_text`:
the Python string literal `,.;:!?\"'()[]{}`. -/
def punctChars : List Char :=
  [',', '.', ';', ':', '!', '?', Char.ofNat 34, Char.ofNat 39,
   '(', ')', '[', ']', Char.ofNat 123, Char.ofNat 125]

/-- The loop `for ch in ",.;:!?\"'()[]{}": s = s.replace(ch, " ")` —
a left fold of single-character replacements over the punctuation list. -/
def replacePunct (s : Str) : Str :=
  punctChars.foldl (fun acc ch => acc.map (fun c => if c = ch then ' ' else c)) s

/-- Python `int()` on a rational: truncation toward zero. -/
def pyInt (q : ℚ) : Int := if q < 0 then -⌊-q⌋ else ⌊q⌋

/-- Python `str.strip()`: drop leading and trailing whitespace. -/
def pyStrip (s : Str) : Str :=
  ((s.dropWhile isPySpace).reverse.dropWhile isPySpace).reverse

/-- Python `str.split()` (no separator argument): split on runs of
whitespace, discarding empty pieces. -/
def pySplit (s : Str) : List Str :=
  (s.splitOnP isPySpace).filter (fun w => !w.isEmpty)

/-- Python `" ".join(words)`. -/
def joinWords (ws : List Str) : Str := List.intercalate [' '] ws

/-- The accent-stripping line of `normalize_text`: NFKD-decompose, then
drop combining characters. -/
def stripAccents (s : Str) : Str :=
  ((s.map nfkdChar).flatten).filter (fun c => !isCombining c)

/-- `normalize_text` from `utils.py`: lowercase, strip, NFKD + drop
combining marks, punctuation to spaces, collapse whitespace. -/
def normalize_text (s : Str) : Str :=
  joinWords (pySplit (replacePunct (stripAccents (pyStrip (s.map pyLower)))))

/-! ## vad.py : SpeechSegmenter

The segmenter object carries two kinds of fields: configuration constants
fixed in `__init__` (`frame_len`, `frame_bytes`, `pad_frames`) and the
mutable utterance state installed by `reset()` (`speech_frames`,
`trailing_non_speech`, `in_speech`, `start_time`).  We split them into
`SpeechSegmenter` (constants) and `SegState` (mutable state).

Two external effects appear inside `process_one_frame`:
`self.vad.is_speech(frame_bytes, sample_rate)` and the wall-clock test
`(time.time() - self.start_time) > max_segment_sec`.  Both are modelled
as per-call oracle inputs (`is_speech`, `timed_out`).  `start_time` is a
float timestamp used only for truthiness in that test, so it is modelled
by the boolean `start_time_set` (`time.time()` is never `0.0`).

Frames are byte lists.  Each frame appended to the buffer is paired with
the VAD verdict that was computed for it — a ghost label that lets the
theorems talk about "speech frames" and "non-speech frames" inside an
emitted segment; the raw bytes of a segment are recovered by `segBytes`
(the `b"".join` of the source). -/

/-- VAD configuration (`VADConfig` dataclass). Durations are `ℚ`. -/
structure VADConfig where
  sample_rate : Nat
  frame_ms : Nat
  aggressiveness : Nat
  max_segment_sec : ℚ
  min_speech_sec : ℚ
  speech_pad_ms : Nat

/-- Configuration constants computed once in `SpeechSegmenter.__init__`. -/
structure SpeechSegmenter where
  frame_len : Nat
  frame_bytes : Nat
  pad_frames : Nat
deriving DecidableEq

/-- The `__init__` computation:
`frame_len = int(sample_rate * (frame_ms / 1000.0))`,
`frame_bytes = frame_len * 2`, `pad_frames = int(speech_pad_ms / frame_ms)`.
The Python expressions use float arithmetic; for the integer-valued
configurations accepted by webrtcvad (10/20/30 ms at 8/16/32/48 kHz) the
float results are exact, and truncation agrees with `Nat` division. -/
def mkSegmenter (cfg : VADConfig) : SpeechSegmenter :=
  { frame_len := cfg.sample_rate * cfg.frame_ms / 1000
    frame_bytes := cfg.sample_rate * cfg.frame_ms / 1000 * 2
    pad_frames := cfg.speech_pad_ms / cfg.frame_ms }

/-- A buffered frame: raw bytes plus the ghost VAD verdict recorded when
the frame was appended. -/
abbrev GFrame := List Nat × Bool

/-- The mutable utterance state of the segmenter. -/
structure SegState where
  speech_frames : List GFrame
  trailing_non_speech : Nat
  in_speech : Bool
  start_time_set : Bool
deriving DecidableEq

/-- `SpeechSegmenter.reset()`: empty buffer, zero trailing-silence
counter, not in speech, no start time. -/
def SpeechSegmenter.reset : SegState :=
  { speech_frames := []
    trailing_non_speech := 0
    in_speech := false
    start_time_set := false }

/-- The segment value emitted by a finalize event, `b"".join(speech_frames)`
(the ghost labels are erased). -/
def segBytes (seg : List GFrame) : List Nat := (seg.map Prod.fst).flatten

/-- The trailing max-duration check at the end of `process_one_frame`:
`if self.in_speech and self.start_time and (time.time() - start_time) > max_segment_sec`
force-finalize, else return `(None, self.in_speech)`.  `timed_out` is the
oracle value of the elapsed-time comparison. -/
def finalizeMaybe (timed_out : Bool) (st : SegState) :
    Except String (Option (List GFrame) × Bool × SegState) :=
  if st.in_speech && st.start_time_set && timed_out then
    Except.ok (some st.speech_frames, false, SpeechSegmenter.reset)
  else
    Except.ok (none, st.in_speech, st)

/-- `SpeechSegmenter.process_one_frame`, one call.  Returns the emitted
segment (if any), the returned `in_speech` flag, and the new state; a
frame of the wrong byte length raises `ValueError`, modelled as
`Except.error`.  `is_speech` is the oracle verdict of
`self.vad.is_speech(frame_bytes, sample_rate)` for this frame. -/
def SpeechSegmenter.process_one_frame (sg : SpeechSegmenter) (st : SegState)
    (frame : List Nat) (is_speech timed_out : Bool) :
    Except String (Option (List GFrame) × Bool × SegState) :=
  if frame.length ≠ sg.frame_bytes then
    Except.error "Expected frame_bytes bytes"
  else if is_speech then
    finalizeMaybe timed_out
      { speech_frames := st.speech_frames ++ [(frame, true)]
        trailing_non_speech := 0
        in_speech := true
        start_time_set := if st.in_speech then st.start_time_set else true }
  else if st.in_speech then
    let t := st.trailing_non_speech + 1
    let buf := if t ≤ sg.pad_frames then st.speech_frames ++ [(frame, false)]
               else st.speech_frames
    if sg.pad_frames ≤ t then
      Except.ok (some buf, false, SpeechSegmenter.reset)
    else
      finalizeMaybe timed_out
        { speech_frames := buf
          trailing_non_speech := t
          in_speech := st.in_speech
          start_time_set := st.start_time_set }
  else
    finalizeMaybe timed_out st

/-- The exception semantics of a `process_one_frame` call on the mutable
object: on `ValueError` the raise happens before any field assignment, so
the object keeps its previous state. -/
def tryProcess (sg : SpeechSegmenter) (st : SegState)
    (frame : List Nat) (is_speech timed_out : Bool) :
    Except String (Option (List GFrame) × Bool) × SegState :=
  match sg.process_one_frame st frame is_speech timed_out with
  | Except.error e => (Except.error e, st)
  | Except.ok (seg, flag, st1) => (Except.ok (seg, flag), st1)

/-- `min_frames_before_transcribe`: `int((min_speech_sec * 1000) / frame_ms)`. -/
def min_frames_before_transcribe (cfg : VADConfig) : Int :=
  pyInt (cfg.min_speech_sec * 1000 / (cfg.frame_ms : ℚ))

/-- One input presented to the segmenter: the raw frame plus the two
oracle values consumed by the call processing it. -/
structure SegInput where
  frame : List Nat
  is_speech : Bool
  timed_out : Bool

/-- Feed a list of inputs through `process_one_frame`, collecting the
emitted segments in order. -/
def runSeg (sg : SpeechSegmenter) (st : SegState) :
    List SegInput → Except String (List (List GFrame) × SegState)
  | [] => Except.ok ([], st)
  | i :: rest =>
    match sg.process_one_frame st i.frame i.is_speech i.timed_out with
    | Except.error e => Except.error e
    | Except.ok (emitted, _, st1) =>
      match runSeg sg st1 rest with
      | Except.error e => Except.error e
      | Except.ok (segs, st2) => Except.ok (emitted.toList ++ segs, st2)

/-- Number of trailing ghost-non-speech frames at the tail of a buffered
segment. -/
def falseTail (seg : List GFrame) : Nat :=
  (seg.reverse.takeWhile (fun g => !g.2)).length

/-- Length of the consecutive non-speech run at the end of a processed
input sequence (the run immediately preceding the next event). -/
def trailRun (inputs : List SegInput) : Nat :=
  (inputs.reverse.takeWhile (fun i => !i.is_speech)).length

/-! ## matcher.py : PhraseMatcher

The two external effects inside `match` are `time.time()` (modelled as
the per-call argument `now : ℚ`) and the rapidfuzz call
`process.extractOne(txt, candidates, scorer=fuzz.ratio)` (the scorer is
an oracle `Str → Str → ℚ`; `extractOne` itself — return the choice with
the highest score, earlier choices winning ties — is modelled
concretely).  Python dicts are association lists in insertion order with
unique keys. -/

/-- `MatchResult` dataclass. -/
structure MatchResult where
  phrase : Str
  command : Str
  score : Int
deriving DecidableEq

/-- Matcher state: constructor parameters plus the two dicts.  The
`self.tokens` dict always holds `set(p.split())` for each key `p` of
`triggers` (it is filled that way in `__init__` and never mutated), so it
is represented by recomputation from the key. -/
structure PhraseMatcher where
  threshold : Int
  cooldown_sec : ℚ
  require_all_tokens : Bool
  min_chars : Nat
  triggers : List (Str × Str)
  cooldowns : List (Str × ℚ)

/-- Python dict assignment `d[k] = v`: update the existing entry in
place, or append a new one. -/
def dictInsert (d : List (Str × ℚ)) (k : Str) (v : ℚ) : List (Str × ℚ) :=
  match d with
  | [] => [(k, v)]
  | e :: es => if e.1 == k then (k, v) :: es else e :: dictInsert es k v

/-- `PhraseMatcher.__init__`: normalize each trigger phrase and store
`phrase -> command` (later duplicates overwrite); cooldown registry
starts empty. -/
def mkPhraseMatcher (triggers : List (Str × Str)) (threshold : Int)
    (cooldown_sec : ℚ) (require_all_tokens : Bool) (min_chars : Nat) :
    PhraseMatcher :=
  { threshold := threshold
    cooldown_sec := cooldown_sec
    require_all_tokens := require_all_tokens
    min_chars := min_chars
    triggers := triggers.foldl
      (fun acc e =>
        let p := normalize_text e.1
        if acc.any (fun x => x.1 == p) then
          acc.map (fun x => if x.1 == p then (p, e.2) else x)
        else acc ++ [(p, e.2)])
      []
    cooldowns := [] }

/-- The token set of a phrase, `set(p.split())`: the distinct tokens. -/
def tokenSet (p : Str) : List Str := (pySplit p).dedup

/-- Left-to-right scan keeping the first best-scoring choice (a strictly
greater score replaces the running best). -/
def extractOneAux (scorer : Str → Str → ℚ) (query : Str) :
    Option (Str × ℚ) → List Str → Option (Str × ℚ)
  | acc, [] => acc
  | acc, c :: cs =>
    match acc with
    | none => extractOneAux scorer query (some (c, scorer query c)) cs
    | some b =>
      if scorer query c > b.2 then
        extractOneAux scorer query (some (c, scorer query c)) cs
      else
        extractOneAux scorer query (some b) cs

/-- `rapidfuzz.process.extractOne(query, choices, scorer)` with no score
cutoff: the highest-scoring choice, the earliest winning ties; `none` on
an empty choice list. -/
def extractOne (scorer : Str → Str → ℚ) (query : Str) (choices : List Str) :
    Option (Str × ℚ) :=
  extractOneAux scorer query none choices

/-- The candidate filter of `PhraseMatcher.match`: keep every trigger key
unless the policy flag is set, the phrase has more than one distinct
token, and its token set is not contained in the transcript token set. -/
def PhraseMatcher.candidatesOf (m : PhraseMatcher) (txt_tokens : List Str) :
    List Str :=
  (m.triggers.map Prod.fst).filter (fun phrase =>
    !(m.require_all_tokens && decide (1 < (tokenSet phrase).length)
        && !((tokenSet phrase).all (fun t => txt_tokens.contains t))))

/-- `PhraseMatcher.match(text)` (named `matchText` because `match` is a
reserved word).  Returns the pair returned by the source —
`(Optional[MatchResult], best_score)` — together with the matcher state
after the call (only `self._cooldowns` is ever mutated). -/
def PhraseMatcher.matchText (m : PhraseMatcher) (text : Str) (now : ℚ)
    (scorer : Str → Str → ℚ) : (Option MatchResult × Int) × PhraseMatcher :=
  let txt := normalize_text text
  if txt.isEmpty || decide (txt.length < m.min_chars) then ((none, 0), m)
  else
    let txt_tokens := tokenSet txt
    let candidates := m.candidatesOf txt_tokens
    if candidates.isEmpty then ((none, 0), m)
    else
      match extractOne scorer txt candidates with
      | none => ((none, 0), m)
      | some (match_phrase, score) =>
        let score_i := pyInt score
        if m.threshold ≤ score_i then
          let last := (m.cooldowns.lookup match_phrase).getD 0
          if m.cooldown_sec ≤ now - last then
            ((some { phrase := match_phrase
                     command := (m.triggers.lookup match_phrase).getD []
                     score := score_i }, score_i),
             { m with cooldowns := dictInsert m.cooldowns match_phrase now })
          else ((none, score_i), m)
        else ((none, score_i), m)

/-! ## udp_io.py : control-plane listener

`listener_thread` is a socket loop; the per-datagram body (everything
after `recvfrom` succeeds) is a pure function of the configuration and
the decoded text, returning which callback it invokes.  Decoding
(`data.decode("utf-8", errors="ignore")`) is modelled by taking the
decoded text as the datagram payload. -/

/-- `UDPConfig` dataclass (defaults as in the source). -/
structure UDPConfig where
  enable_in : Bool
  host : Str
  port : Nat
  token : Option Str
  out_host : Option Str
  out_port : Nat
  allow_cmd : Bool

/-- The effect of one datagram: which of the four callbacks
(`on_pause`, `on_resume`, `on_trigger`, `on_cmd`) is invoked, or none. -/
inductive UDPAction where
  | noAction
  | pause
  | resume
  | trigger (phrase : Str)
  | cmd (shell : Str)
deriving DecidableEq

/-- Python `s.split(":", 1)[1]`: everything after the first colon.  (At
every use site the string is known to contain a colon.) -/
def afterFirstColon (s : Str) : Str :=
  (s.dropWhile (fun c => c != ':')).drop 1

/-- The verb dispatch on the (possibly token-stripped) message:
uppercase, then test the `CTRL:` / `TRIGGER:` / `CMD:` prefixes in the
order of the source. -/
def dispatchVerb (cfg : UDPConfig) (msg : Str) : UDPAction :=
  let up := msg.map pyUpper
  if ("CTRL:".toList).isPrefixOf up then
    let action := pyStrip (afterFirstColon up)
    if action = "PAUSE".toList then UDPAction.pause
    else if action = "RESUME".toList then UDPAction.resume
    else UDPAction.noAction
  else if ("TRIGGER:".toList).isPrefixOf up then
    UDPAction.trigger (pyStrip (afterFirstColon msg))
  else if ("CMD:".toList).isPrefixOf up then
    if !cfg.allow_cmd then UDPAction.noAction
    else
      let shell := pyStrip (afterFirstColon msg)
      if shell.isEmpty then UDPAction.noAction else UDPAction.cmd shell
  else UDPAction.noAction

/-- The per-datagram body of `listener_thread`: strip the decoded text,
enforce the token prefix when a token is configured (`if cfg.token:` is
Python truthiness, so an empty token behaves like no token), then
dispatch on the verb. -/
def handleDatagram (cfg : UDPConfig) (data : Str) : UDPAction :=
  let msg := pyStrip data
  match cfg.token with
  | none => dispatchVerb cfg msg
  | some tok =>
    if tok.isEmpty then dispatchVerb cfg msg
    else if !(msg.contains ':') || !((tok ++ [':']).isPrefixOf msg) then
      UDPAction.noAction
    else dispatchVerb cfg (afterFirstColon msg)

/-- The state the four callbacks of `app.main` can touch: the listening
gate (`set_listening`), plus event logs of the phrases handed to
`on_trigger` and the shell strings handed to `on_cmd`. -/
structure AppEffects where
  listening : Bool
  fired_triggers : List Str
  exec_cmds : List Str
deriving DecidableEq

/-- Apply the callback selected for one datagram to the app state. -/
def applyUDPAction (s : AppEffects) : UDPAction → AppEffects
  | UDPAction.noAction => s
  | UDPAction.pause => { s with listening := false }
  | UDPAction.resume => { s with listening := true }
  | UDPAction.trigger p => { s with fired_triggers := s.fired_triggers ++ [p] }
  | UDPAction.cmd sh => { s with exec_cmds := s.exec_cmds ++ [sh] }

/-! ## app.py : the two consumer loops and the listening gate

The frame-consumer loop body (in `main`) is

```
frame = audio.q.get(timeout=0.2)
if not is_listening(): continue
seg, _ = segmenter.process_one_frame(frame)
if seg is not None: segments_q.put(seg)
```

and the segment-consumer loop body (in `asr_worker`) is

```
seg = segments_q.get(timeout=0.2)
if not is_listening(): continue
total_frames = len(seg) // frame_bytes
if total_frames < min_frames: continue
text, dt = transcriber.transcribe_pcm16(...)
if not text: continue
result, best_score = matcher.match(text)
if result: run_command(result.command); ...
```

The gate value read by `is_listening()` at each iteration is an oracle
input (it is written concurrently by the control plane). -/

/-- State owned by the frame-consumer loop: segmenter state plus the
segment queue contents it has produced. -/
structure PipelineState where
  seg : SegState
  segments_q : List (List GFrame)
deriving DecidableEq

/-- One iteration of the frame-consumer loop: dequeue a frame; when the
gate is off, drop it (the segmenter is not invoked and nothing is
enqueued); otherwise run the segmenter and enqueue an emitted segment. -/
def mainLoopStep (sg : SpeechSegmenter) (listening : Bool)
    (st : PipelineState) (inp : SegInput) : Except String PipelineState :=
  if !listening then Except.ok st
  else
    match sg.process_one_frame st.seg inp.frame inp.is_speech inp.timed_out with
    | Except.error e => Except.error e
    | Except.ok (some s, _, st1) =>
      Except.ok { seg := st1, segments_q := st.segments_q ++ [s] }
    | Except.ok (none, _, st1) =>
      Except.ok { seg := st1, segments_q := st.segments_q }

/-- Run the frame-consumer loop over a trace of (gate value, frame)
iterations. -/
def runMainLoop (sg : SpeechSegmenter) (st : PipelineState) :
    List (Bool × SegInput) → Except String PipelineState
  | [] => Except.ok st
  | (g, i) :: rest =>
    match mainLoopStep sg g st i with
    | Except.error e => Except.error e
    | Except.ok st1 => runMainLoop sg st1 rest

/-- State owned by the segment-consumer loop (`asr_worker`): the matcher
plus the log of commands dispatched through `run_command`. -/
structure ASRWorkerState where
  matcher : PhraseMatcher
  dispatched : List Str

/-- One iteration of `asr_worker` on a dequeued segment.  `transcribe` is
the ASR oracle, `scorer` the similarity oracle, `now` the clock value of
the embedded `matcher.match` call, `min_frames` the precomputed
`min_frames_before_transcribe` bound. -/
def asrStep (sg : SpeechSegmenter) (min_frames : Int) (listening : Bool)
    (transcribe : List Nat → Str) (scorer : Str → Str → ℚ) (now : ℚ)
    (st : ASRWorkerState) (seg : List GFrame) : ASRWorkerState :=
  if !listening then st
  else
    let bytes := segBytes seg
    let total_frames := bytes.length / sg.frame_bytes
    if decide ((total_frames : Int) < min_frames) then st
    else
      let text := transcribe bytes
      if text.isEmpty then st
      else
        match st.matcher.matchText text now scorer with
        | ((some r, _), m1) =>
          { matcher := m1, dispatched := st.dispatched ++ [r.command] }
        | ((none, _), m1) => { st with matcher := m1 }

/-! ## Theorems -/

/-- Helper: a `dispatchVerb` call can only select the `on_cmd` callback
when the allow-remote-command flag is set. -/
theorem dispatchVerb_cmd_allow (cfg : UDPConfig) (msg sh : Str)
    (h : dispatchVerb cfg msg = UDPAction.cmd sh) : cfg.allow_cmd = true := by
  unfold dispatchVerb at h
  dsimp only at h
  split at h
  · split at h
    · cases h
    · split at h
      · cases h
      · cases h
  · split at h
    · cases h
    · split at h
      · split at h
        · cases h
        · next hflag =>
          split at h
          · cases h
          · simpa using hflag
      · cases h

/-- Helper: a datagram can only reach the `on_cmd` callback when the
allow-remote-command flag is set. -/
theorem handleDatagram_cmd_allow (cfg : UDPConfig) (data sh : Str)
    (h : handleDatagram cfg data = UDPAction.cmd sh) : cfg.allow_cmd = true := by
  unfold handleDatagram at h
  dsimp only at h
  split at h
  · exact dispatchVerb_cmd_allow _ _ _ h
  · split at h
    · exact dispatchVerb_cmd_allow _ _ _ h
    · split at h
      · cases h
      · exact dispatchVerb_cmd_allow _ _ _ h

/-- C9: calling the segmenter with a frame whose byte length differs from
the configured frame byte length raises (`Except.error`) and leaves the
segmenter state unchanged — the frame is rejected explicitly, and no
accumulated state is modified by the failing call. -/
theorem frame_length_check_rejects (sg : SpeechSegmenter) (st : SegState)
    (frame : List Nat) (is_speech timed_out : Bool)
    (h : frame.length ≠ sg.frame_bytes) :
    tryProcess sg st frame is_speech timed_out =
      (Except.error "Expected frame_bytes bytes", st) := by
  unfold tryProcess SpeechSegmenter.process_one_frame
  rw [if_pos h]

/-- Witness for C9 at a concrete input: a 1-byte frame against the
default 640-byte configuration. -/
theorem frame_length_check_rejects_witness :
    ([0] : List Nat).length ≠ (SpeechSegmenter.mk 320 640 6).frame_bytes ∧
    tryProcess (SpeechSegmenter.mk 320 640 6) SpeechSegmenter.reset [0] true false =
      (Except.error "Expected frame_bytes bytes", SpeechSegmenter.reset) :=
  ⟨by decide, frame_length_check_rejects _ _ _ _ _ (by decide)⟩

/-- C3: with a configured (non-empty) token, a datagram whose stripped
text does not begin with `token:` produces no action: the listening gate
is unchanged and no trigger or command callback runs, for any payload. -/
theorem token_gate_drops (cfg : UDPConfig) (data tok : Str)
    (htok : cfg.token = some tok) (hne : tok.isEmpty = false)
    (hpre : (tok ++ [':']).isPrefixOf (pyStrip data) = false) :
    handleDatagram cfg data = UDPAction.noAction ∧
      ∀ s, applyUDPAction s (handleDatagram cfg data) = s := by
  have h : handleDatagram cfg data = UDPAction.noAction := by
    unfold handleDatagram
    rw [htok]
    simp [hne, hpre]
  exact ⟨h, fun s => by rw [h]; rfl⟩

/-- Witness for C3 at a concrete input: token `sec`, payload
`CTRL:PAUSE` (no token prefix). -/
theorem token_gate_drops_witness :
    handleDatagram
        { enable_in := true, host := [], port := 9999, token := some "sec".toList,
          out_host := none, out_port := 9999, allow_cmd := false }
        "CTRL:PAUSE".toList = UDPAction.noAction ∧
      ∀ s, applyUDPAction s
        (handleDatagram
          { enable_in := true, host := [], port := 9999, token := some "sec".toList,
            out_host := none, out_port := 9999, allow_cmd := false }
          "CTRL:PAUSE".toList) = s :=
  token_gate_drops _ _ _ rfl (by decide) (by decide)

/-- C7: a `CMD:` datagram leads to command execution only if the
allow-remote-command flag is enabled; with the flag disabled no datagram
whatsoever reaches the `on_cmd` callback, for any payload. -/
theorem cmd_needs_allow_flag (cfg : UDPConfig) (data : Str) :
    (∀ sh, handleDatagram cfg data = UDPAction.cmd sh → cfg.allow_cmd = true) ∧
    (cfg.allow_cmd = false →
      ∀ s, (applyUDPAction s (handleDatagram cfg data)).exec_cmds = s.exec_cmds) := by
  refine ⟨fun sh h => handleDatagram_cmd_allow cfg data sh h, fun hac s => ?_⟩
  cases hda : handleDatagram cfg data with
  | cmd sh =>
    have := handleDatagram_cmd_allow cfg data sh hda
    rw [hac] at this
    cases this
  | noAction => rfl
  | pause => rfl
  | resume => rfl
  | trigger p => rfl

/-- Witness for C7 at a concrete input: flag disabled, payload `CMD:ls`;
the command log is untouched. -/
theorem cmd_needs_allow_flag_witness :
    (applyUDPAction (AppEffects.mk true [] [])
      (handleDatagram
        { enable_in := true, host := [], port := 9999, token := none,
          out_host := none, out_port := 9999, allow_cmd := false }
        "CMD:ls".toList)).exec_cmds = [] :=
  (cmd_needs_allow_flag _ _).2 rfl (AppEffects.mk true [] [])

/-- C1 (amended): while the listening gate is false, a dequeued frame is
dropped without touching the segmenter or the segment queue, and a
dequeued segment is dropped without touching the matcher or dispatching
anything — draining continues with the loop state unchanged. -/
theorem gate_false_drops (sg : SpeechSegmenter) (st : PipelineState)
    (inp : SegInput) (min_frames : Int) (transcribe : List Nat → Str)
    (scorer : Str → Str → ℚ) (now : ℚ) (ast : ASRWorkerState)
    (seg : List GFrame) :
    mainLoopStep sg false st inp = Except.ok st ∧
      asrStep sg min_frames false transcribe scorer now ast seg = ast :=
  ⟨rfl, rfl⟩

/-- C1 counterexample: pausing mid-utterance does NOT discard the
utterance.  With `pad_frames = 1`, `frame_bytes = 1`: frame `[7]`
(speech) is processed with the gate on, the gate is then cleared while
the segmenter is mid-utterance (buffer `[([7], true)]`, `in_speech`),
the next frame is drained and dropped, and after resume the silence
frame `[9]` finalizes a segment that still contains the pre-pause frame
`[7]` — contradicting the claim that no frame of an utterance in
progress at pause time appears in a segment emitted after resume. -/
theorem pause_discard_counterexample :
    runMainLoop (SpeechSegmenter.mk 1 1 1) ⟨SpeechSegmenter.reset, []⟩
        [(true, ⟨[7], true, false⟩)]
      = Except.ok ⟨⟨[([7], true)], 0, true, true⟩, []⟩ ∧
    runMainLoop (SpeechSegmenter.mk 1 1 1) ⟨SpeechSegmenter.reset, []⟩
        [(true, ⟨[7], true, false⟩), (false, ⟨[8], true, false⟩),
         (true, ⟨[9], false, false⟩)]
      = Except.ok ⟨SpeechSegmenter.reset, [[([7], true), ([9], false)]]⟩ ∧
    (([7], true) ∈ ([([7], true), ([9], false)] : List GFrame)) :=
  ⟨rfl, rfl, by decide⟩

/-- Helper: a key just written by `dictInsert` reads back its value. -/
theorem lookup_dictInsert_self (d : List (Str × ℚ)) (k : Str) (v : ℚ) :
    (dictInsert d k v).lookup k = some v := by
  induction d with
  | nil => simp [dictInsert, List.lookup]
  | cons e es ih =>
    unfold dictInsert
    split
    · simp [List.lookup]
    · next hek =>
      have hke : (k == e.1) = false := by
        simp only [beq_eq_false_iff_ne] at hek ⊢
        exact fun hkk => hek (by simp [hkk])
      simpa [List.lookup, hke] using ih

/-- Helper: `dictInsert` leaves every other key unchanged. -/
theorem lookup_dictInsert_ne (d : List (Str × ℚ)) (k q : Str) (v : ℚ)
    (hq : q ≠ k) : (dictInsert d k v).lookup q = d.lookup q := by
  have hqk : (q == k) = false := beq_eq_false_iff_ne.mpr hq
  induction d with
  | nil => simp [dictInsert, List.lookup, hqk]
  | cons e es ih =>
    unfold dictInsert
    split
    · next hek =>
      have hek' : e.1 = k := by simpa using hek
      simp [List.lookup, hek', hqk]
    · next hek =>
      cases hqe : (q == e.1) <;> simp [List.lookup, hqe, ih]

/-- Helper: one `match` call either returns no result and an unchanged
matcher, or returns a result whose phrase passed the cooldown-window
test, stamping `now` for exactly that phrase. -/
theorem matchText_spec (m : PhraseMatcher) (text : Str) (now : ℚ)
    (scorer : Str → Str → ℚ) (out : (Option MatchResult × Int) × PhraseMatcher)
    (h : m.matchText text now scorer = out) :
    (out.1.1 = none ∧ out.2 = m) ∨
    (∃ r, out.1.1 = some r ∧
      m.cooldown_sec ≤ now - ((m.cooldowns.lookup r.phrase).getD 0) ∧
      out.2 = { m with cooldowns := dictInsert m.cooldowns r.phrase now }) := by
  unfold PhraseMatcher.matchText at h
  dsimp only at h
  split at h
  · exact Or.inl (by rw [← h]; exact ⟨rfl, rfl⟩)
  · split at h
    · exact Or.inl (by rw [← h]; exact ⟨rfl, rfl⟩)
    · split at h
      · exact Or.inl (by rw [← h]; exact ⟨rfl, rfl⟩)
      · next mp sc heq =>
        split at h
        · split at h
          · next hwin =>
            refine Or.inr
              ⟨⟨mp, (m.triggers.lookup mp).getD [], pyInt sc⟩, ?_, ?_, ?_⟩
            · rw [← h]
            · exact hwin
            · rw [← h]
          · exact Or.inl (by rw [← h]; exact ⟨rfl, rfl⟩)
        · exact Or.inl (by rw [← h]; exact ⟨rfl, rfl⟩)

/-- C2: the per-phrase cooldown policy of the matcher.  (i) A call
returning no result leaves the matcher — in particular the cooldown
registry — unchanged, so suppressed and below-threshold attempts never
touch the registry.  (ii) A call returning a result for a phrase was
outside the cooldown window of that phrase (`cooldown_sec ≤ now - last`),
stamps `now` for exactly that phrase and leaves all other entries alone.
(iii) Hence once a match for a phrase is accepted at `now`, a later call
accepting the same phrase at `now2` must satisfy
`cooldown_sec ≤ now2 - now`: an attempt for that phrase strictly inside
the window returns no result. -/
theorem cooldown_policy (m : PhraseMatcher) (text : Str) (now : ℚ)
    (scorer : Str → Str → ℚ) :
    ((m.matchText text now scorer).1.1 = none →
      (m.matchText text now scorer).2 = m) ∧
    (∀ r, (m.matchText text now scorer).1.1 = some r →
      m.cooldown_sec ≤ now - ((m.cooldowns.lookup r.phrase).getD 0) ∧
      (m.matchText text now scorer).2.cooldowns =
        dictInsert m.cooldowns r.phrase now ∧
      ∀ q, q ≠ r.phrase →
        ((m.matchText text now scorer).2.cooldowns.lookup q) =
          m.cooldowns.lookup q) ∧
    (∀ r r2 text2 now2 scorer2,
      (m.matchText text now scorer).1.1 = some r →
      (((m.matchText text now scorer).2).matchText text2 now2 scorer2).1.1 =
        some r2 →
      r2.phrase = r.phrase →
      m.cooldown_sec ≤ now2 - now) := by
  obtain hsp := matchText_spec m text now scorer _ rfl
  refine ⟨?_, ?_, ?_⟩
  · intro hn
    rcases hsp with ⟨_, h2⟩ | ⟨r, hr, _, _⟩
    · exact h2
    · rw [hn] at hr; cases hr
  · intro r hr
    rcases hsp with ⟨h1, _⟩ | ⟨r', hr', hwin, hst⟩
    · rw [hr] at h1; cases h1
    · rw [hr] at hr'
      obtain rfl : r' = r := (Option.some.inj hr').symm
      refine ⟨hwin, by rw [hst], fun q hq => ?_⟩
      rw [hst]
      exact lookup_dictInsert_ne _ _ _ _ hq
  · intro r r2 text2 now2 scorer2 hr hr2 hph
    rcases hsp with ⟨h1, _⟩ | ⟨r', hr', hwin, hst⟩
    · rw [hr] at h1; cases h1
    · rw [hr] at hr'
      obtain rfl : r' = r := (Option.some.inj hr').symm
      obtain hsp2 :=
        matchText_spec ((m.matchText text now scorer).2) text2 now2 scorer2 _ rfl
      rcases hsp2 with ⟨h1, _⟩ | ⟨r2', hr2', hwin2, _⟩
      · rw [hr2] at h1; cases h1
      · rw [hr2] at hr2'
        obtain rfl : r2' = r2 := (Option.some.inj hr2').symm
        rw [hst, hph] at hwin2
        simpa [lookup_dictInsert_self] using hwin2

/-- Concrete matcher used by the C2 witness. -/
def matcherW : PhraseMatcher :=
  { threshold := 85, cooldown_sec := 4, require_all_tokens := true,
    min_chars := 3, triggers := [("say hello".toList, "cmd1".toList)],
    cooldowns := [] }

/-- Concrete scorer used by the C2 witness. -/
def scorerW : Str → Str → ℚ := fun _ _ => 100

/-- Concrete accepted result of the C2 witness call. -/
def resultW : MatchResult := ⟨"say hello".toList, "cmd1".toList, 100⟩

/-- Witness for C2 at a concrete input: transcript `say hello` at time
10 against an empty registry is accepted, satisfies the window test, and
stamps exactly its phrase. -/
theorem cooldown_policy_witness :
    (matcherW.matchText "say hello".toList 10 scorerW).1.1 = some resultW ∧
    matcherW.cooldown_sec ≤
      10 - ((matcherW.cooldowns.lookup resultW.phrase).getD 0) ∧
    (matcherW.matchText "say hello".toList 10 scorerW).2.cooldowns =
      dictInsert matcherW.cooldowns resultW.phrase 10 := by
  have hsome : (matcherW.matchText "say hello".toList 10 scorerW).1.1 =
      some resultW := by
    have hn : normalize_text "say hello".toList = "say hello".toList := by decide
    have hc : matcherW.candidatesOf (tokenSet "say hello".toList) =
        ["say hello".toList] := by decide
    unfold PhraseMatcher.matchText
    dsimp only
    rw [hn, hc]
    norm_num [matcherW, scorerW, resultW, extractOne, extractOneAux, pyInt,
      List.lookup, dictInsert]
  have h := (cooldown_policy matcherW "say hello".toList 10 scorerW).2.1
    resultW hsome
  exact ⟨hsome, h.1, h.2.1⟩

/-- Helper: `extractOneAux` only ever returns an element of its choice
list or the accumulator it started from. -/
theorem extractOneAux_mem (scorer : Str → Str → ℚ) (query : Str) :
    ∀ (cs : List Str) (acc : Option (Str × ℚ)) (p : Str) (sc : ℚ),
      extractOneAux scorer query acc cs = some (p, sc) →
      p ∈ cs ∨ acc = some (p, sc) := by
  intro cs
  induction cs with
  | nil => intro acc p sc h; cases acc <;> exact Or.inr h
  | cons c cs ih =>
    intro acc p sc h
    cases acc with
    | none =>
      rw [show extractOneAux scorer query none (c :: cs) =
          extractOneAux scorer query (some (c, scorer query c)) cs from rfl] at h
      rcases ih _ p sc h with hm | hacc
      · exact Or.inl (List.mem_cons_of_mem _ hm)
      · obtain ⟨rfl, rfl⟩ : c = p ∧ scorer query c = sc := by
          cases hacc; exact ⟨rfl, rfl⟩
        exact Or.inl (List.mem_cons_self _ _)
    | some b =>
      rw [show extractOneAux scorer query (some b) (c :: cs) =
          if scorer query c > b.2 then
            extractOneAux scorer query (some (c, scorer query c)) cs
          else extractOneAux scorer query (some b) cs from rfl] at h
      split at h
      · rcases ih _ p sc h with hm | hacc
        · exact Or.inl (List.mem_cons_of_mem _ hm)
        · obtain ⟨rfl, rfl⟩ : c = p ∧ scorer query c = sc := by
            cases hacc; exact ⟨rfl, rfl⟩
          exact Or.inl (List.mem_cons_self _ _)
      · rcases ih _ p sc h with hm | hacc
        · exact Or.inl (List.mem_cons_of_mem _ hm)
        · exact Or.inr hacc

/-- Helper: the choice returned by `extractOne` is in the choice list. -/
theorem extractOne_mem (scorer : Str → Str → ℚ) (query : Str)
    (choices : List Str) (p : Str) (sc : ℚ)
    (h : extractOne scorer query choices = some (p, sc)) : p ∈ choices := by
  rcases extractOneAux_mem scorer query choices none p sc h with hm | habs
  · exact hm
  · cases habs

/-- Helper: the phrase of a returned match is always one of the
candidates that survived the token filter. -/
theorem matchText_phrase_mem (m : PhraseMatcher) (text : Str) (now : ℚ)
    (scorer : Str → Str → ℚ) (out : (Option MatchResult × Int) × PhraseMatcher)
    (h : m.matchText text now scorer = out) (r : MatchResult)
    (hr : out.1.1 = some r) :
    r.phrase ∈ m.candidatesOf (tokenSet (normalize_text text)) := by
  unfold PhraseMatcher.matchText at h
  dsimp only at h
  split at h
  · rw [← h] at hr; cases hr
  · split at h
    · rw [← h] at hr; cases hr
    · split at h
      · rw [← h] at hr; cases hr
      · next mp sc heq =>
        split at h
        · split at h
          · rw [← h] at hr
            obtain rfl : _ = r := Option.some.inj hr
            exact extractOne_mem _ _ _ _ _ heq
          · rw [← h] at hr; cases hr
        · rw [← h] at hr; cases hr

/-- C6: the candidate token filter.  (i) With the policy flag set, every
trigger phrase with more than one distinct token whose token set is not
contained in the transcript token set is excluded from the candidate
list, and therefore can never be the phrase of a returned match.
(ii) A phrase with at most one distinct token is never excluded by this
filter.  (iii) If no candidates remain the matcher returns no-match with
score 0 and an unchanged matcher. -/
theorem candidate_filter (m : PhraseMatcher) (text : Str) (now : ℚ)
    (scorer : Str → Str → ℚ) (hreq : m.require_all_tokens = true) :
    (∀ p, 1 < (tokenSet p).length →
      ((tokenSet p).all
        (fun t => (tokenSet (normalize_text text)).contains t)) = false →
      p ∉ m.candidatesOf (tokenSet (normalize_text text)) ∧
      ∀ r, (m.matchText text now scorer).1.1 = some r → r.phrase ≠ p) ∧
    (∀ p, p ∈ m.triggers.map Prod.fst → (tokenSet p).length ≤ 1 →
      p ∈ m.candidatesOf (tokenSet (normalize_text text))) ∧
    (m.candidatesOf (tokenSet (normalize_text text)) = [] →
      m.matchText text now scorer = ((none, 0), m)) := by
  refine ⟨fun p hlen hsub => ?_, fun p hp hlen => ?_, fun hempty => ?_⟩
  · have hnotc : p ∉ m.candidatesOf (tokenSet (normalize_text text)) := by
      intro hmem
      have hpred := (List.mem_filter.mp hmem).2
      rw [hreq] at hpred
      simp [hlen] at hpred
      simp at hsub
      obtain ⟨x, hx1, hx2⟩ := hsub
      exact hx2 (hpred x hx1)
    refine ⟨hnotc, fun r hr hrp => hnotc ?_⟩
    rw [← hrp]
    exact matchText_phrase_mem m text now scorer _ rfl r hr
  · refine List.mem_filter.mpr ⟨hp, ?_⟩
    have hnl : ¬ (1 < (tokenSet p).length) := by omega
    simp [hnl]
  · unfold PhraseMatcher.matchText
    dsimp only
    split
    · rfl
    · rw [hempty]
      rfl

/-- Concrete matcher used by the C6 witness. -/
def matcherC : PhraseMatcher :=
  { threshold := 85, cooldown_sec := 4, require_all_tokens := true,
    min_chars := 3, triggers := [("open browser".toList, "cmd2".toList)],
    cooldowns := [] }

/-- Witness for C6 at a concrete input: transcript `browser` supplies
only one of the two tokens of trigger `open browser`, which is excluded
from the candidates and can never be the returned match. -/
theorem candidate_filter_witness :
    "open browser".toList ∉
      matcherC.candidatesOf (tokenSet (normalize_text "browser".toList)) ∧
    ∀ r, (matcherC.matchText "browser".toList 10 (fun _ _ => 100)).1.1 =
        some r → r.phrase ≠ "open browser".toList :=
  (candidate_filter matcherC "browser".toList 10 (fun _ _ => 100) rfl).1
    "open browser".toList (by decide) (by decide)

/-- Helper: exhaustive case analysis of one successful
`process_one_frame` call — the six reachable outcomes of the two
branches, the pad-finalize test and the max-duration cutoff. -/
theorem process_one_frame_cases (sg : SpeechSegmenter) (st : SegState)
    (frame : List Nat) (is_speech timed_out : Bool)
    (em : Option (List GFrame)) (b : Bool) (st1 : SegState)
    (h : sg.process_one_frame st frame is_speech timed_out =
      Except.ok (em, b, st1)) :
    (is_speech = true ∧ em = none ∧
      st1 = ⟨st.speech_frames ++ [(frame, true)], 0, true,
             if st.in_speech then st.start_time_set else true⟩) ∨
    (is_speech = true ∧ em = some (st.speech_frames ++ [(frame, true)]) ∧
      st1 = SpeechSegmenter.reset) ∨
    (is_speech = false ∧ st.in_speech = true ∧
      sg.pad_frames ≤ st.trailing_non_speech + 1 ∧
      em = some (if st.trailing_non_speech + 1 ≤ sg.pad_frames then
                   st.speech_frames ++ [(frame, false)]
                 else st.speech_frames) ∧
      st1 = SpeechSegmenter.reset) ∨
    (is_speech = false ∧ st.in_speech = true ∧
      ¬ sg.pad_frames ≤ st.trailing_non_speech + 1 ∧ em = none ∧
      st1 = ⟨st.speech_frames ++ [(frame, false)],
             st.trailing_non_speech + 1, true, st.start_time_set⟩) ∨
    (is_speech = false ∧ st.in_speech = true ∧
      ¬ sg.pad_frames ≤ st.trailing_non_speech + 1 ∧
      em = some (st.speech_frames ++ [(frame, false)]) ∧
      st1 = SpeechSegmenter.reset) ∨
    (is_speech = false ∧ st.in_speech = false ∧ em = none ∧ st1 = st) := by
  unfold SpeechSegmenter.process_one_frame at h
  split at h
  · cases h
  · split at h
    · next hsp =>
      unfold finalizeMaybe at h
      dsimp only at h
      split at h
      · next hins =>
        split at h
        · cases h
          exact Or.inr (Or.inl ⟨hsp, rfl, by simp [hins]⟩)
        · cases h
          exact Or.inl ⟨hsp, rfl, by simp [hins]⟩
      · next hins =>
        split at h
        · cases h
          exact Or.inr (Or.inl ⟨hsp, rfl, by simp [hins]⟩)
        · cases h
          exact Or.inl ⟨hsp, rfl, by simp [hins]⟩
    · next hsp =>
      have hsp' : is_speech = false := by
        cases is_speech
        · rfl
        · exact absurd rfl hsp
      split at h
      · next hin =>
        dsimp only at h
        split at h
        · next hpad =>
          cases h
          exact Or.inr (Or.inr (Or.inl ⟨hsp', hin, hpad, rfl, rfl⟩))
        · next hpad =>
          rw [if_pos (by omega : st.trailing_non_speech + 1 ≤ sg.pad_frames)] at h
          unfold finalizeMaybe at h
          split at h
          · cases h
            exact Or.inr (Or.inr (Or.inr (Or.inr (Or.inl
              ⟨hsp', hin, hpad, rfl, rfl⟩))))
          · cases h
            exact Or.inr (Or.inr (Or.inr (Or.inl
              ⟨hsp', hin, hpad, rfl, by rw [hin]⟩)))
      · next hin =>
        have hin' : st.in_speech = false := by
          cases hh : st.in_speech
          · rfl
          · exact absurd hh hin
        unfold finalizeMaybe at h
        rw [if_neg (by simp [hin'])] at h
        cases h
        exact Or.inr (Or.inr (Or.inr (Or.inr (Or.inr
          ⟨hsp', hin', rfl, rfl⟩))))

/-- Helper: one call consumes the input frame at most once — the emitted
segment (if any) followed by the remaining buffer is a sublist of the old
buffer followed by the labeled input frame. -/
theorem process_one_frame_sublist (sg : SpeechSegmenter) (st : SegState)
    (frame : List Nat) (is_speech timed_out : Bool)
    (em : Option (List GFrame)) (b : Bool) (st1 : SegState)
    (h : sg.process_one_frame st frame is_speech timed_out =
      Except.ok (em, b, st1)) :
    List.Sublist (em.getD [] ++ st1.speech_frames)
      (st.speech_frames ++ [(frame, is_speech)]) := by
  rcases process_one_frame_cases sg st frame is_speech timed_out em b st1 h with
    ⟨hs, hem, hst⟩ | ⟨hs, hem, hst⟩ | ⟨hs, _, _, hem, hst⟩ |
    ⟨hs, _, _, hem, hst⟩ | ⟨hs, _, _, hem, hst⟩ | ⟨hs, _, hem, hst⟩
  · subst hs; subst hem; subst hst
    simp
  · subst hs; subst hem; subst hst
    simp [SpeechSegmenter.reset]
  · subst hs; subst hem; subst hst
    simp only [SpeechSegmenter.reset, Option.getD_some, List.append_nil]
    split
    · exact List.Sublist.refl _
    · exact List.sublist_append_left _ _
  · subst hs; subst hem; subst hst
    simp
  · subst hs; subst hem; subst hst
    simp [SpeechSegmenter.reset]
  · subst hs; subst hem; subst hst
    simp [List.sublist_append_left]

/-- Helper: over a whole run, emitted segments plus the final buffer form
a sublist of the initial buffer plus the labeled inputs. -/
theorem runSeg_sublist (sg : SpeechSegmenter) :
    ∀ (inputs : List SegInput) (st : SegState) (segs : List (List GFrame))
      (st2 : SegState), runSeg sg st inputs = Except.ok (segs, st2) →
      List.Sublist (segs.flatten ++ st2.speech_frames)
        (st.speech_frames ++ inputs.map (fun i => (i.frame, i.is_speech))) := by
  intro inputs
  induction inputs with
  | nil =>
    intro st segs st2 h
    cases h
    simp
  | cons i rest ih =>
    intro st segs st2 h
    unfold runSeg at h
    cases hstep : sg.process_one_frame st i.frame i.is_speech i.timed_out with
    | error e => rw [hstep] at h; cases h
    | ok res =>
      obtain ⟨em, bb, st1⟩ := res
      rw [hstep] at h
      dsimp only at h
      cases hrest : runSeg sg st1 rest with
      | error e => rw [hrest] at h; cases h
      | ok res2 =>
        obtain ⟨segs1, st2a⟩ := res2
        rw [hrest] at h
        dsimp only at h
        cases h
        have h1 := process_one_frame_sublist sg st i.frame i.is_speech
          i.timed_out em bb st1 hstep
        have h2 := ih st1 segs1 st2 hrest
        have h3 : List.Sublist ((em.toList ++ segs1).flatten ++ st2.speech_frames)
            ((em.getD [] ++ st1.speech_frames) ++
              rest.map (fun i => (i.frame, i.is_speech))) := by
          have h4 := h2.append_left (em.getD [])
          have h5 : (em.toList ++ segs1).flatten ++ st2.speech_frames =
              em.getD [] ++ (segs1.flatten ++ st2.speech_frames) := by
            cases em <;> simp
          rw [h5, List.append_assoc]
          exact h4
        have h6 := h1.append_right (rest.map (fun i => (i.frame, i.is_speech)))
        have h7 : (st.speech_frames ++ [(i.frame, i.is_speech)]) ++
            rest.map (fun i => (i.frame, i.is_speech)) =
            st.speech_frames ++ (i :: rest).map (fun i => (i.frame, i.is_speech)) := by
          simp
        rw [h7] at h6
        exact h3.trans h6

/-- C5: exactly-once attribution of frames.  Over any run from the
initial state, the concatenation of all emitted segments followed by the
still-buffered frames is a sublist of the labeled input sequence, so
every input frame occurrence appears in at most one emitted segment; and
every finalize event (a call returning a segment) resets the buffer,
trailing-silence counter, in-speech flag and start time in that same
call. -/
theorem frames_at_most_once (sg : SpeechSegmenter) (inputs : List SegInput)
    (segs : List (List GFrame)) (st2 : SegState)
    (h : runSeg sg SpeechSegmenter.reset inputs = Except.ok (segs, st2)) :
    List.Sublist (segs.flatten ++ st2.speech_frames)
      (inputs.map (fun i => (i.frame, i.is_speech))) ∧
    (∀ st frame is_speech timed_out em b st1,
      sg.process_one_frame st frame is_speech timed_out =
        Except.ok (em, b, st1) →
      ∀ seg, em = some seg → st1 = SpeechSegmenter.reset) := by
  constructor
  · have := runSeg_sublist sg inputs SpeechSegmenter.reset segs st2 h
    simpa [SpeechSegmenter.reset] using this
  · intro st frame is_speech timed_out em b st1 hstep seg hseg
    subst hseg
    rcases process_one_frame_cases sg st frame is_speech timed_out _ b st1 hstep
      with ⟨_, hem, _⟩ | ⟨_, _, hst⟩ | ⟨_, _, _, _, hst⟩ |
        ⟨_, _, _, hem, _⟩ | ⟨_, _, _, _, hst⟩ | ⟨_, _, hem, _⟩
    · cases hem
    · exact hst
    · exact hst
    · cases hem
    · exact hst
    · cases hem

/-- Witness for C5 at a concrete input: a two-frame utterance with
`pad_frames = 1` emits one segment and the sublist relation holds. -/
theorem frames_at_most_once_witness :
    runSeg (SpeechSegmenter.mk 1 1 1) SpeechSegmenter.reset
        [⟨[7], true, false⟩, ⟨[9], false, false⟩] =
      Except.ok ([[([7], true), ([9], false)]], SpeechSegmenter.reset) ∧
    List.Sublist ([[([7], true), ([9], false)]].flatten ++
        SpeechSegmenter.reset.speech_frames)
      ([(⟨[7], true, false⟩ : SegInput), ⟨[9], false, false⟩].map
        (fun i => (i.frame, i.is_speech))) :=
  ⟨rfl,
   (frames_at_most_once (SpeechSegmenter.mk 1 1 1)
      [⟨[7], true, false⟩, ⟨[9], false, false⟩]
      [[([7], true), ([9], false)]] SpeechSegmenter.reset rfl).1⟩

/-- Invariant for C10: out of speech the buffer is empty; in speech the
buffer starts with a frame the VAD judged speech. -/
def SegInv (st : SegState) : Prop :=
  (st.in_speech = false → st.speech_frames = []) ∧
  (st.in_speech = true → ∃ f rest, st.speech_frames = (f, true) :: rest)

/-- Helper: the initial state satisfies the invariant. -/
theorem segInv_reset : SegInv SpeechSegmenter.reset := by
  constructor
  · intro _; rfl
  · intro h; cases h

/-- Helper: one call preserves `SegInv`, and any segment it emits starts
with a speech frame. -/
theorem process_one_frame_inv (sg : SpeechSegmenter) (st : SegState)
    (frame : List Nat) (is_speech timed_out : Bool)
    (em : Option (List GFrame)) (b : Bool) (st1 : SegState)
    (hinv : SegInv st)
    (h : sg.process_one_frame st frame is_speech timed_out =
      Except.ok (em, b, st1)) :
    SegInv st1 ∧ ∀ seg, em = some seg → ∃ f rest, seg = (f, true) :: rest := by
  rcases process_one_frame_cases sg st frame is_speech timed_out em b st1 h with
    ⟨_, hem, hst⟩ | ⟨_, hem, hst⟩ | ⟨_, hin, _, hem, hst⟩ |
    ⟨_, hin, _, hem, hst⟩ | ⟨_, hin, _, hem, hst⟩ | ⟨_, hin, hem, hst⟩
  · subst hem; subst hst
    refine ⟨⟨fun hh => (nomatch hh), fun _ => ?_⟩, fun seg hseg => (nomatch hseg)⟩
    cases hsp : st.in_speech
    · rw [hinv.1 hsp]
      exact ⟨frame, [], rfl⟩
    · obtain ⟨f, rest, hfr⟩ := hinv.2 hsp
      rw [hfr]
      exact ⟨f, rest ++ [(frame, true)], rfl⟩
  · subst hem; subst hst
    refine ⟨segInv_reset, fun seg hseg => ?_⟩
    obtain rfl : st.speech_frames ++ [(frame, true)] = seg := Option.some.inj hseg
    cases hsp : st.in_speech
    · rw [hinv.1 hsp]
      exact ⟨frame, [], rfl⟩
    · obtain ⟨f, rest, hfr⟩ := hinv.2 hsp
      rw [hfr]
      exact ⟨f, rest ++ [(frame, true)], rfl⟩
  · subst hem; subst hst
    refine ⟨segInv_reset, fun seg hseg => ?_⟩
    obtain ⟨f, rest, hfr⟩ := hinv.2 hin
    obtain rfl : _ = seg := Option.some.inj hseg
    split
    · rw [hfr]
      exact ⟨f, rest ++ [(frame, false)], rfl⟩
    · rw [hfr]
      exact ⟨f, rest, rfl⟩
  · subst hem; subst hst
    refine ⟨⟨fun hh => (nomatch hh), fun _ => ?_⟩, fun seg hseg => (nomatch hseg)⟩
    obtain ⟨f, rest, hfr⟩ := hinv.2 hin
    rw [hfr]
    exact ⟨f, rest ++ [(frame, false)], rfl⟩
  · subst hem; subst hst
    refine ⟨segInv_reset, fun seg hseg => ?_⟩
    obtain ⟨f, rest, hfr⟩ := hinv.2 hin
    obtain rfl : _ = seg := Option.some.inj hseg
    rw [hfr]
    exact ⟨f, rest ++ [(frame, false)], rfl⟩
  · subst hem; subst hst
    exact ⟨hinv, fun seg hseg => nomatch hseg⟩

/-- Helper: the invariant holds along any run, and every emitted segment
starts with a speech frame. -/
theorem runSeg_inv (sg : SpeechSegmenter) :
    ∀ (inputs : List SegInput) (st : SegState) (segs : List (List GFrame))
      (st2 : SegState), SegInv st →
      runSeg sg st inputs = Except.ok (segs, st2) →
      SegInv st2 ∧ ∀ seg ∈ segs, ∃ f rest, seg = (f, true) :: rest := by
  intro inputs
  induction inputs with
  | nil =>
    intro st segs st2 hinv h
    cases h
    exact ⟨hinv, by simp⟩
  | cons i rest ih =>
    intro st segs st2 hinv h
    unfold runSeg at h
    cases hstep : sg.process_one_frame st i.frame i.is_speech i.timed_out with
    | error e => rw [hstep] at h; cases h
    | ok res =>
      obtain ⟨em, bb, st1⟩ := res
      rw [hstep] at h
      dsimp only at h
      cases hrest : runSeg sg st1 rest with
      | error e => rw [hrest] at h; cases h
      | ok res2 =>
        obtain ⟨segs1, st2a⟩ := res2
        rw [hrest] at h
        dsimp only at h
        cases h
        obtain ⟨hinv1, hem⟩ := process_one_frame_inv sg st i.frame i.is_speech
          i.timed_out em bb st1 hinv hstep
        obtain ⟨hinv2, hsegs⟩ := ih st1 segs1 st2 hinv1 hrest
        refine ⟨hinv2, fun seg hseg => ?_⟩
        rcases List.mem_append.mp hseg with hl | hr
        · have hoem : em = some seg := by
            cases em with
            | none => cases hl
            | some s =>
              have hss : seg = s := by simpa using hl
              rw [hss]
          exact hem seg hoem
        · exact hsegs seg hr

/-- C10: every emitted segment is non-empty and begins with a frame the
VAD classified as speech (a finalize event is only reachable from the
in-speech state, which is entered by appending a speech frame). -/
theorem segments_start_with_speech (sg : SpeechSegmenter)
    (inputs : List SegInput) (segs : List (List GFrame)) (st2 : SegState)
    (h : runSeg sg SpeechSegmenter.reset inputs = Except.ok (segs, st2)) :
    ∀ seg ∈ segs, seg ≠ [] ∧ ∃ f rest, seg = (f, true) :: rest := by
  intro seg hseg
  obtain ⟨f, rest, hfr⟩ :=
    (runSeg_inv sg inputs SpeechSegmenter.reset segs st2 segInv_reset h).2 seg hseg
  exact ⟨by rw [hfr]; simp, f, rest, hfr⟩

/-- Witness for C10 at a concrete input: the segment emitted by a
speech+silence run is non-empty and starts with the speech frame. -/
theorem segments_start_with_speech_witness :
    ([([7], true), ([9], false)] : List GFrame) ≠ [] ∧
    ∃ f rest, ([([7], true), ([9], false)] : List GFrame) = (f, true) :: rest :=
  segments_start_with_speech (SpeechSegmenter.mk 1 1 1)
    [⟨[7], true, false⟩, ⟨[9], false, false⟩]
    [[([7], true), ([9], false)]] SpeechSegmenter.reset rfl
    [([7], true), ([9], false)] (by decide)

/-- Helper: appending a speech-labeled frame clears the false tail. -/
theorem falseTail_append_true (l : List GFrame) (f : List Nat) :
    falseTail (l ++ [(f, true)]) = 0 := by
  simp [falseTail]

/-- Helper: appending a non-speech-labeled frame grows the false tail. -/
theorem falseTail_append_false (l : List GFrame) (f : List Nat) :
    falseTail (l ++ [(f, false)]) = falseTail l + 1 := by
  simp [falseTail]

/-- Helper: the trailing non-speech run of the inputs, one step. -/
theorem trailRun_append (inputs : List SegInput) (i : SegInput) :
    trailRun (inputs ++ [i]) =
      if i.is_speech then 0 else trailRun inputs + 1 := by
  cases hsp : i.is_speech <;> simp [trailRun, hsp]

/-- Invariant for C4: while in speech, the trailing-silence counter
agrees with the trailing non-speech run of the inputs consumed so far,
is zero or below the pad bound, and counts exactly the false-labeled
frames at the tail of the buffer. -/
def C4Inv (pad : Nat) (processed : List SegInput) (st : SegState) : Prop :=
  st.in_speech = true →
    st.trailing_non_speech = trailRun processed ∧
    (st.trailing_non_speech = 0 ∨ st.trailing_non_speech < pad) ∧
    falseTail st.speech_frames = st.trailing_non_speech

/-- Helper: one call preserves `C4Inv`, and any segment it emits carries
exactly `min(trailing run, pad_frames)` non-speech frames at its tail. -/
theorem c4_step (sg : SpeechSegmenter) (st : SegState) (i : SegInput)
    (em : Option (List GFrame)) (b : Bool) (st1 : SegState)
    (processed : List SegInput)
    (hinv : C4Inv sg.pad_frames processed st)
    (h : sg.process_one_frame st i.frame i.is_speech i.timed_out =
      Except.ok (em, b, st1)) :
    C4Inv sg.pad_frames (processed ++ [i]) st1 ∧
    ∀ seg, em = some seg →
      falseTail seg = min (trailRun (processed ++ [i])) sg.pad_frames := by
  rcases process_one_frame_cases sg st i.frame i.is_speech i.timed_out em b st1 h
    with ⟨hs, hem, hst⟩ | ⟨hs, hem, hst⟩ | ⟨hs, hin, hpad, hem, hst⟩ |
      ⟨hs, hin, hpad, hem, hst⟩ | ⟨hs, hin, hpad, hem, hst⟩ | ⟨hs, hin, hem, hst⟩
  · subst hem; subst hst
    refine ⟨fun _ => ⟨?_, Or.inl rfl, ?_⟩, fun seg hseg => (nomatch hseg)⟩
    · rw [trailRun_append]
      simp [hs]
    · exact falseTail_append_true _ _
  · subst hem; subst hst
    refine ⟨fun hh => (nomatch hh), fun seg hseg => ?_⟩
    obtain rfl : st.speech_frames ++ [(i.frame, true)] = seg :=
      Option.some.inj hseg
    rw [trailRun_append]
    simp [hs, falseTail_append_true]
  · subst hem; subst hst
    obtain ⟨htr, hb, hft⟩ := hinv hin
    refine ⟨fun hh => (nomatch hh), fun seg hseg => ?_⟩
    obtain rfl : _ = seg := Option.some.inj hseg
    rw [trailRun_append]
    simp only [hs, if_false, Bool.false_eq_true]
    rw [← htr]
    split
    · next hle =>
      rw [falseTail_append_false, hft]
      omega
    · next hgt =>
      rw [hft]
      omega
  · subst hem; subst hst
    obtain ⟨htr, hb, hft⟩ := hinv hin
    refine ⟨fun _ => ⟨?_, ?_, ?_⟩, fun seg hseg => (nomatch hseg)⟩
    · rw [trailRun_append]
      simp [hs, htr]
    · right
      show st.trailing_non_speech + 1 < sg.pad_frames
      omega
    · rw [falseTail_append_false, hft]
  · subst hem; subst hst
    obtain ⟨htr, hb, hft⟩ := hinv hin
    refine ⟨fun hh => (nomatch hh), fun seg hseg => ?_⟩
    obtain rfl : _ = seg := Option.some.inj hseg
    rw [trailRun_append]
    simp only [hs, if_false, Bool.false_eq_true]
    rw [falseTail_append_false, hft, ← htr]
    omega
  · subst hem; subst hst
    refine ⟨fun hh => ?_, fun seg hseg => (nomatch hseg)⟩
    rw [hin] at hh
    cases hh

/-- Helper: `C4Inv` holds along any run. -/
theorem c4_run (sg : SpeechSegmenter) :
    ∀ (inputs p0 : List SegInput) (st : SegState) (segs : List (List GFrame))
      (st2 : SegState), C4Inv sg.pad_frames p0 st →
      runSeg sg st inputs = Except.ok (segs, st2) →
      C4Inv sg.pad_frames (p0 ++ inputs) st2 := by
  intro inputs
  induction inputs with
  | nil =>
    intro p0 st segs st2 hinv h
    cases h
    simpa using hinv
  | cons i rest ih =>
    intro p0 st segs st2 hinv h
    unfold runSeg at h
    cases hstep : sg.process_one_frame st i.frame i.is_speech i.timed_out with
    | error e => rw [hstep] at h; cases h
    | ok res =>
      obtain ⟨em, bb, st1⟩ := res
      rw [hstep] at h
      dsimp only at h
      cases hrest : runSeg sg st1 rest with
      | error e => rw [hrest] at h; cases h
      | ok res2 =>
        obtain ⟨segs1, st2a⟩ := res2
        rw [hrest] at h
        dsimp only at h
        cases h
        have h1 := (c4_step sg st i em bb st1 p0 hinv hstep).1
        have h2 := ih (p0 ++ [i]) st1 segs1 st2 h1 hrest
        simpa [List.append_assoc] using h2

/-- C4: pad inclusion.  Whenever a run from the initial state is followed
by a call that finalizes a segment, the segment carries exactly
`min(trailing_non_speech_run_length, pad_frames)` non-speech frames at
its tail, where the run length is measured on the input sequence ending
at the finalizing frame. -/
theorem pad_inclusion (sg : SpeechSegmenter) (pre : List SegInput)
    (i : SegInput) (segsP : List (List GFrame)) (stP : SegState)
    (hrun : runSeg sg SpeechSegmenter.reset pre = Except.ok (segsP, stP))
    (seg : List GFrame) (b : Bool) (st1 : SegState)
    (hstep : sg.process_one_frame stP i.frame i.is_speech i.timed_out =
      Except.ok (some seg, b, st1)) :
    falseTail seg = min (trailRun (pre ++ [i])) sg.pad_frames := by
  have hinv0 : C4Inv sg.pad_frames [] SpeechSegmenter.reset := by
    intro hh
    cases hh
  have hinvP := c4_run sg pre [] SpeechSegmenter.reset segsP stP hinv0 hrun
  rw [List.nil_append] at hinvP
  exact (c4_step sg stP i (some seg) b st1 pre hinvP hstep).2 seg rfl

/-- Witness for C4 at a concrete input: with `pad_frames = 1`, the
silence frame after one speech frame finalizes a segment whose tail
holds `min(1, 1) = 1` non-speech frame. -/
theorem pad_inclusion_witness :
    runSeg (SpeechSegmenter.mk 1 1 1) SpeechSegmenter.reset
        [⟨[7], true, false⟩] =
      Except.ok ([], SegState.mk [([7], true)] 0 true true) ∧
    falseTail [([7], true), ([9], false)] =
      min (trailRun ([⟨[7], true, false⟩] ++ [⟨[9], false, false⟩]))
        (SpeechSegmenter.mk 1 1 1).pad_frames :=
  ⟨rfl,
   pad_inclusion (SpeechSegmenter.mk 1 1 1) [⟨[7], true, false⟩]
     ⟨[9], false, false⟩ [] (SegState.mk [([7], true)] 0 true true) rfl
     [([7], true), ([9], false)] false SpeechSegmenter.reset rfl⟩

/-! ### Normalization idempotence (C8)

`normalize_text` is NOT idempotent in general: compatibility
decomposition happens after case folding, so a character whose NFKD
expansion contains an uppercase letter (for example U+2116 NUMERO SIGN,
which decomposes to `No`) survives the first pass with an uppercase
letter that only the second pass lowercases.  On ASCII input the function
is idempotent, proved below. -/

/-- Helper: `Char.ofNat` round-trips on valid scalar values below the
surrogate range. -/
theorem char_toNat_ofNat (n : Nat) (h : n < 55296) : (Char.ofNat n).toNat = n := by
  rw [Char.ofNat, dif_pos (Or.inl h)]
  simp [Char.ofNatAux, Char.toNat, UInt32.ofNat', UInt32.toNat, BitVec.toNat_ofNatLt]

/-- Helper: lowercasing keeps a character out of the uppercase range. -/
theorem pyLower_not_upper (c : Char) :
    ¬ (65 ≤ (pyLower c).toNat ∧ (pyLower c).toNat ≤ 90) := by
  unfold pyLower Char.toLower
  by_cases hc : c.toNat ≥ 65 ∧ c.toNat ≤ 90
  · rw [if_pos hc, char_toNat_ofNat _ (by omega)]
    omega
  · rw [if_neg hc]
    omega

/-- Helper: lowercasing an ASCII character stays in ASCII. -/
theorem pyLower_ascii (c : Char) (h : c.toNat < 128) :
    (pyLower c).toNat < 128 := by
  unfold pyLower Char.toLower
  by_cases hc : c.toNat ≥ 65 ∧ c.toNat ≤ 90
  · rw [if_pos hc, char_toNat_ofNat _ (by omega)]
    omega
  · rw [if_neg hc]
    exact h

/-- Helper: lowercasing fixes everything outside the uppercase range. -/
theorem pyLower_fix (c : Char) (h : ¬ (65 ≤ c.toNat ∧ c.toNat ≤ 90)) :
    pyLower c = c := by
  unfold pyLower Char.toLower
  rw [if_neg (by omega)]

/-- Helper: ASCII characters have no compatibility decomposition. -/
theorem nfkdChar_ascii (c : Char) (h : c.toNat < 128) : nfkdChar c = [c] := by
  unfold nfkdChar
  rw [if_neg (by omega)]

/-- Helper: ASCII characters have combining class zero. -/
theorem isCombining_ascii (c : Char) (h : c.toNat < 128) :
    isCombining c = false := by
  unfold isCombining
  simp
  omega

/-- Helper: a map that fixes every member fixes the list. -/
theorem map_id_of_mem {f : Char → Char} :
    ∀ (l : List Char), (∀ c ∈ l, f c = c) → l.map f = l := by
  intro l
  induction l with
  | nil => intro _; rfl
  | cons x xs ih =>
    intro h
    simp only [List.map_cons]
    rw [h x (List.mem_cons_self _ _), ih (fun c hc => h c (List.mem_cons_of_mem _ hc))]

/-- Helper: flattening singleton decompositions is the identity. -/
theorem flatten_map_singleton {f : Char → List Char} :
    ∀ (l : List Char), (∀ c ∈ l, f c = [c]) → (l.map f).flatten = l := by
  intro l
  induction l with
  | nil => intro _; rfl
  | cons x xs ih =>
    intro h
    simp only [List.map_cons, List.flatten_cons]
    rw [h x (List.mem_cons_self _ _), ih (fun c hc => h c (List.mem_cons_of_mem _ hc))]
    rfl

/-- Helper: membership survives stripping. -/
theorem mem_of_mem_pyStrip {c : Char} {l : Str} (h : c ∈ pyStrip l) : c ∈ l := by
  unfold pyStrip at h
  rw [List.mem_reverse] at h
  have h1 := (List.dropWhile_sublist isPySpace).subset h
  rw [List.mem_reverse] at h1
  exact (List.dropWhile_sublist isPySpace).subset h1

/-- Helper: `stripAccents` is the identity on ASCII strings. -/
theorem stripAccents_ascii (l : Str) (h : ∀ c ∈ l, c.toNat < 128) :
    stripAccents l = l := by
  unfold stripAccents
  rw [flatten_map_singleton l (fun c hc => nfkdChar_ascii c (h c hc))]
  exact List.filter_eq_self.mpr
    (fun c hc => by rw [isCombining_ascii c (h c hc)]; rfl)

/-- Helper: every character of `replacePunct l` is a space or a
non-punctuation character of `l`. -/
theorem replacePunct_chars :
    ∀ (ps : List Char) (acc : Str) (c : Char),
      c ∈ ps.foldl (fun acc ch => acc.map (fun c => if c = ch then ' ' else c)) acc →
      c = ' ' ∨ (c ∈ acc ∧ c ∉ ps) := by
  intro ps
  induction ps with
  | nil => intro acc c hc; exact Or.inr ⟨hc, by simp⟩
  | cons p ps ih =>
    intro acc c hc
    rcases ih _ c hc with hsp | ⟨hmem, hnp⟩
    · exact Or.inl hsp
    · rcases List.mem_map.mp hmem with ⟨a, ha, hac⟩
      by_cases hap : a = p
      · rw [hap] at hac
        simp at hac
        exact Or.inl hac.symm
      · rw [if_neg hap] at hac
        subst hac
        refine Or.inr ⟨ha, ?_⟩
        intro hmem2
        rcases List.mem_cons.mp hmem2 with h1 | h2
        · exact hap h1
        · exact hnp h2

/-- Helper: `replacePunct` does not touch punctuation-free strings. -/
theorem replacePunct_id :
    ∀ (ps : List Char) (l : Str), (∀ c ∈ l, c ∉ ps) →
      ps.foldl (fun acc ch => acc.map (fun c => if c = ch then ' ' else c)) l = l := by
  intro ps
  induction ps with
  | nil => intro l _; rfl
  | cons p ps ih =>
    intro l h
    have hstep : l.map (fun c => if c = p then ' ' else c) = l :=
      map_id_of_mem l (fun c hc =>
        if_neg (fun hcp => h c hc (by rw [hcp]; exact List.mem_cons_self _ _)))
    simp only [List.foldl_cons, hstep]
    exact ih l (fun c hc hmem => h c hc (List.mem_cons_of_mem _ hmem))

/-- Helper: every character of a `splitOnP` chunk is a non-separator
character of the original list. -/
theorem mem_of_mem_splitOnP {p : Char → Bool} :
    ∀ (l : Str) (w : Str), w ∈ l.splitOnP p → ∀ c ∈ w, c ∈ l ∧ p c = false := by
  intro l
  induction l with
  | nil =>
    intro w hw c hc
    rw [List.splitOnP_nil] at hw
    rcases List.mem_singleton.mp hw with rfl
    cases hc
  | cons x xs ih =>
    intro w hw c hc
    rw [List.splitOnP_cons] at hw
    by_cases hx : p x
    · rw [if_pos hx] at hw
      rcases List.mem_cons.mp hw with rfl | hw2
      · cases hc
      · obtain ⟨hcx, hcp⟩ := ih w hw2 c hc
        exact ⟨List.mem_cons_of_mem _ hcx, hcp⟩
    · rw [if_neg hx] at hw
      obtain ⟨hd, tl, hht⟩ := List.exists_cons_of_ne_nil (List.splitOnP_ne_nil p xs)
      rw [hht] at hw
      simp only [List.modifyHead] at hw
      rcases List.mem_cons.mp hw with rfl | hw2
      · rcases List.mem_cons.mp hc with rfl | hc2
        · exact ⟨List.mem_cons_self _ _, by simpa using hx⟩
        · obtain ⟨hcx, hcp⟩ := ih hd (by rw [hht]; exact List.mem_cons_self _ _) c hc2
          exact ⟨List.mem_cons_of_mem _ hcx, hcp⟩
      · obtain ⟨hcx, hcp⟩ := ih w (by rw [hht]; exact List.mem_cons_of_mem _ hw2) c hc
        exact ⟨List.mem_cons_of_mem _ hcx, hcp⟩

/-- Helper: every word of `pySplit l` is non-empty and made of
non-whitespace characters of `l`. -/
theorem pySplit_words (l : Str) (w : Str) (hw : w ∈ pySplit l) :
    w ≠ [] ∧ ∀ c ∈ w, c ∈ l ∧ isPySpace c = false := by
  obtain ⟨hmem, hne⟩ := List.mem_filter.mp hw
  refine ⟨by simpa using hne, fun c hc => mem_of_mem_splitOnP l w hmem c hc⟩

/-- Helper: `intercalate` on the empty word list. -/
theorem intercalate_nil (sep : Str) : List.intercalate sep [] = [] := by
  simp [List.intercalate]

/-- Helper: `intercalate` on a single word. -/
theorem intercalate_single (sep : Str) (w : Str) :
    List.intercalate sep [w] = w := by
  simp [List.intercalate]

/-- Helper: `intercalate` on two or more words. -/
theorem intercalate_cons₂ (sep : Str) (w v : Str) (ws : List Str) :
    List.intercalate sep (w :: v :: ws) =
      w ++ sep ++ List.intercalate sep (v :: ws) := by
  simp [List.intercalate, List.intersperse]

/-- Helper: splitting the space-joined words recovers the words, when
every word is non-empty and whitespace-free. -/
theorem pySplit_joinWords :
    ∀ (ws : List Str),
      (∀ w ∈ ws, w ≠ [] ∧ ∀ c ∈ w, isPySpace c = false) →
      pySplit (joinWords ws) = ws := by
  intro ws
  induction ws with
  | nil =>
    intro _
    simp [joinWords, intercalate_nil, pySplit, List.splitOnP_nil]
  | cons w ws ih =>
    intro h
    obtain ⟨hwne, hwch⟩ := h w (List.mem_cons_self _ _)
    have hwnp : ∀ c ∈ w, ¬ isPySpace c = true := fun c hc => by
      rw [hwch c hc]; simp
    cases ws with
    | nil =>
      unfold joinWords
      rw [intercalate_single]
      unfold pySplit
      rw [List.splitOnP_eq_single _ _ hwnp]
      simp [hwne]
    | cons v ws2 =>
      unfold joinWords
      rw [intercalate_cons₂, List.append_assoc, List.singleton_append]
      unfold pySplit
      rw [List.splitOnP_first _ _ hwnp ' ' (by decide) _]
      have hrest := ih (fun u hu => h u (List.mem_cons_of_mem _ hu))
      have hrest2 : (List.filter (fun u => !u.isEmpty)
          ((List.intercalate [' '] (v :: ws2)).splitOnP isPySpace)) = v :: ws2 := hrest
      simp only [List.filter_cons, hrest2]
      simp [hwne]

/-- Helper: dropping a satisfying prefix is the identity when the head
does not satisfy the predicate. -/
theorem dropWhile_eq_self_of_head {p : Char → Bool} (l : Str)
    (h : ∀ c, l.head? = some c → p c = false) : l.dropWhile p = l := by
  cases l with
  | nil => rfl
  | cons x xs =>
    rw [List.dropWhile_cons, h x rfl]
    simp

/-- Helper: stripping is the identity when neither end is whitespace. -/
theorem pyStrip_eq_self (l : Str)
    (h1 : ∀ c, l.head? = some c → isPySpace c = false)
    (h2 : ∀ c, l.getLast? = some c → isPySpace c = false) : pyStrip l = l := by
  unfold pyStrip
  rw [dropWhile_eq_self_of_head l h1]
  rw [dropWhile_eq_self_of_head l.reverse (fun c hc => h2 c (by rwa [List.head?_reverse] at hc))]
  exact List.reverse_reverse l

/-- Helper: a character of the space-joined words is a space or a
character of some word. -/
theorem mem_joinWords :
    ∀ (ws : List Str) (c : Char), c ∈ joinWords ws →
      c = ' ' ∨ ∃ w ∈ ws, c ∈ w := by
  intro ws
  induction ws with
  | nil => intro c hc; rw [joinWords, intercalate_nil] at hc; cases hc
  | cons w ws ih =>
    intro c hc
    cases ws with
    | nil =>
      rw [joinWords, intercalate_single] at hc
      exact Or.inr ⟨w, List.mem_cons_self _ _, hc⟩
    | cons v ws2 =>
      rw [joinWords, intercalate_cons₂, List.append_assoc] at hc
      rcases List.mem_append.mp hc with hw | hrest
      · exact Or.inr ⟨w, List.mem_cons_self _ _, hw⟩
      · rcases List.mem_cons.mp hrest with rfl | hc2
        · exact Or.inl rfl
        · rcases ih c hc2 with hsp | ⟨u, hu, hcu⟩
          · exact Or.inl hsp
          · exact Or.inr ⟨u, List.mem_cons_of_mem _ hu, hcu⟩

/-- Helper: the head of the space-joined words is a character of the
first word. -/
theorem head_joinWords (ws : List Str)
    (h : ∀ w ∈ ws, w ≠ []) :
    ∀ c, (joinWords ws).head? = some c → ∃ w ∈ ws, c ∈ w := by
  intro c hc
  cases ws with
  | nil => rw [joinWords, intercalate_nil] at hc; cases hc
  | cons w ws =>
    obtain ⟨x, xs, hxs⟩ :=
      List.exists_cons_of_ne_nil (h w (List.mem_cons_self _ _))
    cases ws with
    | nil =>
      rw [joinWords, intercalate_single, hxs] at hc
      refine ⟨w, List.mem_cons_self _ _, ?_⟩
      rw [hxs]
      obtain rfl : x = c := Option.some.inj hc
      exact List.mem_cons_self _ _
    | cons v ws2 =>
      rw [joinWords, intercalate_cons₂, hxs] at hc
      simp only [List.cons_append, List.head?_cons] at hc
      refine ⟨w, List.mem_cons_self _ _, ?_⟩
      rw [hxs]
      obtain rfl : x = c := Option.some.inj hc
      exact List.mem_cons_self _ _

/-- Helper: the last element of an append with a non-empty right part. -/
theorem getLast?_append_right (l₁ l₂ : Str) (h : l₂ ≠ []) :
    (l₁ ++ l₂).getLast? = l₂.getLast? := by
  rw [List.getLast?_append, List.getLast?_eq_getLast_of_ne_nil h]
  rfl

/-- Helper: the last character of the space-joined words is a character
of the last word. -/
theorem getLast_joinWords :
    ∀ (ws : List Str), (∀ w ∈ ws, w ≠ []) →
      ∀ c, (joinWords ws).getLast? = some c → ∃ w ∈ ws, c ∈ w := by
  intro ws
  induction ws with
  | nil => intro _ c hc; rw [joinWords, intercalate_nil] at hc; cases hc
  | cons w ws ih =>
    intro h c hc
    cases ws with
    | nil =>
      rw [joinWords, intercalate_single] at hc
      exact ⟨w, List.mem_cons_self _ _,
        List.mem_of_getLast?_eq_some hc⟩
    | cons v ws2 =>
      rw [joinWords, intercalate_cons₂, List.append_assoc,
        List.singleton_append] at hc
      have hJne : joinWords (v :: ws2) ≠ [] := by
        obtain ⟨y, ys, hy⟩ :=
          List.exists_cons_of_ne_nil (h v (List.mem_cons_of_mem _ (List.mem_cons_self _ _)))
        cases ws2 with
        | nil =>
          rw [joinWords, intercalate_single, hy]
          simp
        | cons u ws3 =>
          rw [joinWords, intercalate_cons₂, hy]
          simp
      have hc2 : (' ' :: joinWords (v :: ws2)).getLast? = some c := by
        rw [← getLast?_append_right w _ (List.cons_ne_nil _ _)]
        exact hc
      obtain ⟨y, ys, hy⟩ := List.exists_cons_of_ne_nil hJne
      rw [hy, List.getLast?_cons_cons, ← hy] at hc2
      obtain ⟨u, hu, hcu⟩ := ih (fun u hu => h u (List.mem_cons_of_mem _ hu)) c hc2
      exact ⟨u, List.mem_cons_of_mem _ hu, hcu⟩

/-- Helper: `normalize_text` fixes any space-joined list of non-empty
words made of ASCII, non-uppercase, non-punctuation, non-whitespace
characters — the canonical shape of its own ASCII output. -/
theorem normalize_joinWords_fixed (W : List Str)
    (hwords : ∀ w ∈ W, w ≠ [] ∧ ∀ c ∈ w,
      c.toNat < 128 ∧ ¬ (65 ≤ c.toNat ∧ c.toNat ≤ 90) ∧
      c ∉ punctChars ∧ isPySpace c = false) :
    normalize_text (joinWords W) = joinWords W := by
  have hwne : ∀ w ∈ W, w ≠ [] := fun w hw => (hwords w hw).1
  have hmap : (joinWords W).map pyLower = joinWords W :=
    map_id_of_mem _ (fun c hc => by
      rcases mem_joinWords W c hc with rfl | ⟨w, hw, hcw⟩
      · decide
      · exact pyLower_fix c ((hwords w hw).2 c hcw).2.1)
  have hhead : ∀ c, (joinWords W).head? = some c → isPySpace c = false := by
    intro c hc
    obtain ⟨w, hw, hcw⟩ := head_joinWords W hwne c hc
    exact ((hwords w hw).2 c hcw).2.2.2
  have hlastc : ∀ c, (joinWords W).getLast? = some c → isPySpace c = false := by
    intro c hc
    obtain ⟨w, hw, hcw⟩ := getLast_joinWords W hwne c hc
    exact ((hwords w hw).2 c hcw).2.2.2
  have hstrip : pyStrip (joinWords W) = joinWords W :=
    pyStrip_eq_self _ hhead hlastc
  have hacc : stripAccents (joinWords W) = joinWords W :=
    stripAccents_ascii _ (fun c hc => by
      rcases mem_joinWords W c hc with rfl | ⟨w, hw, hcw⟩
      · decide
      · exact ((hwords w hw).2 c hcw).1)
  have hpunct : replacePunct (joinWords W) = joinWords W :=
    replacePunct_id punctChars _ (fun c hc => by
      rcases mem_joinWords W c hc with rfl | ⟨w, hw, hcw⟩
      · decide
      · exact ((hwords w hw).2 c hcw).2.2.1)
  have hsplit : pySplit (joinWords W) = W :=
    pySplit_joinWords W (fun w hw => ⟨(hwords w hw).1,
      fun c hc => ((hwords w hw).2 c hc).2.2.2⟩)
  unfold normalize_text
  rw [hmap, hstrip, hacc, hpunct, hsplit]

/-- C8 (amended): `normalize_text` is idempotent on strings of ASCII
characters. -/
theorem normalize_idempotent_ascii (s : Str) (h : ∀ c ∈ s, c.toNat < 128) :
    normalize_text (normalize_text s) = normalize_text s := by
  have hlow : ∀ c ∈ s.map pyLower,
      c.toNat < 128 ∧ ¬ (65 ≤ c.toNat ∧ c.toNat ≤ 90) := by
    intro c hc
    rcases List.mem_map.mp hc with ⟨a, ha, rfl⟩
    exact ⟨pyLower_ascii a (h a ha), pyLower_not_upper a⟩
  have hs1 : ∀ c ∈ pyStrip (s.map pyLower),
      c.toNat < 128 ∧ ¬ (65 ≤ c.toNat ∧ c.toNat ≤ 90) :=
    fun c hc => hlow c (mem_of_mem_pyStrip hc)
  have hsa : stripAccents (pyStrip (s.map pyLower)) = pyStrip (s.map pyLower) :=
    stripAccents_ascii _ (fun c hc => (hs1 c hc).1)
  have hwords : ∀ w ∈ pySplit (replacePunct (stripAccents (pyStrip (s.map pyLower)))),
      w ≠ [] ∧ ∀ c ∈ w,
        c.toNat < 128 ∧ ¬ (65 ≤ c.toNat ∧ c.toNat ≤ 90) ∧
        c ∉ punctChars ∧ isPySpace c = false := by
    intro w hw
    obtain ⟨hne, hch⟩ := pySplit_words _ w hw
    refine ⟨hne, fun c hc => ?_⟩
    obtain ⟨hmem, hnsp⟩ := hch c hc
    rcases replacePunct_chars punctChars _ c hmem with hspc | ⟨hmem2, hnp⟩
    · rw [hspc] at hnsp
      exact absurd hnsp (by decide)
    · rw [hsa] at hmem2
      obtain ⟨ha, hu⟩ := hs1 c hmem2
      exact ⟨ha, hu, hnp, hnsp⟩
  exact normalize_joinWords_fixed _ hwords

/-- Witness for the amended C8 at a concrete ASCII input. -/
theorem normalize_idempotent_ascii_witness :
    normalize_text (normalize_text "  Hello, WORLD!!  please  ".toList) =
      normalize_text "  Hello, WORLD!!  please  ".toList :=
  normalize_idempotent_ascii "  Hello, WORLD!!  please  ".toList (by decide)

/-- C8 counterexample: `normalize_text` is not idempotent in general.
U+2116 NUMERO SIGN has no lowercase mapping but NFKD-decomposes to the
two letters `No`; the first pass therefore outputs `No`, which the
second pass lowercases to `no`. -/
theorem normalize_not_idempotent :
    normalize_text [Char.ofNat 0x2116] = "No".toList ∧
    normalize_text (normalize_text [Char.ofNat 0x2116]) = "no".toList ∧
    normalize_text (normalize_text [Char.ofNat 0x2116]) ≠
      normalize_text [Char.ofNat 0x2116] := by
  refine ⟨by decide, by decide, by decide⟩

end VoiceTrigger
